import Mathlib

/-!
# Verification of the Simple Tasks Blocks core (`src/main.ts`)

A shallow embedding of the recurrence engine, the completion-advance state
machine (`TasksView.toggleTask`), the shared-file reconciliation merge
(`SimpleTasksBlocksPlugin.saveCategories`), the dedicated delete path
(`SimpleTasksBlocksPlugin.deleteTask`), the read contract
(`SimpleTasksBlocksPlugin.getCategories`), task duplication
(`SimpleTasksBlocksPlugin.duplicateTask`) and the future-occurrence
preview (`FutureOccurrencesModal.onOpen`).

Calendar dates (`YYYY-MM-DD` strings manipulated through `moment` in the
source) are embedded as explicit year/month/day triples; `moment`'s
`add(1, 'months')` clamps the day-of-month to the length of the target
month, `add(n, 'days')` walks the Gregorian calendar, and
`isAfter` on such dates is lexicographic comparison of the triples.
Filesystem reads and `JSON.parse` are embedded as an explicit read-outcome
value passed to the functions that perform them; `Date.now()`-based id
generation is embedded as an explicit id argument.
-/

set_option autoImplicit false

namespace STB

/-- A calendar date `YYYY-MM-DD`: year, month (1-12), day (1-31). -/
structure Date where
  y : Nat
  m : Nat
  d : Nat
deriving DecidableEq

/-- Gregorian leap year. -/
def isLeap (y : Nat) : Bool :=
  (y % 4 == 0 && y % 100 != 0) || y % 400 == 0

/-- Number of days in a month of a given year. -/
def daysInMonth (y m : Nat) : Nat :=
  if m == 2 then (if isLeap y then 29 else 28)
  else if m == 4 || m == 6 || m == 9 || m == 11 then 30
  else 31

/-- The next calendar day (`moment.add(1, 'days')`). -/
def Date.nextDay (dt : Date) : Date :=
  if dt.d < daysInMonth dt.y dt.m then ⟨dt.y, dt.m, dt.d + 1⟩
  else if dt.m < 12 then ⟨dt.y, dt.m + 1, 1⟩
  else ⟨dt.y + 1, 1, 1⟩

/-- `moment.add(n, 'days')`. -/
def Date.addDays (dt : Date) (n : Nat) : Date :=
  Date.nextDay^[n] dt

/-- `moment.add(1, 'months')`: step the month, clamping the day-of-month to
the length of the target month. -/
def Date.addMonth (dt : Date) : Date :=
  if dt.m < 12 then ⟨dt.y, dt.m + 1, min dt.d (daysInMonth dt.y (dt.m + 1))⟩
  else ⟨dt.y + 1, 1, min dt.d (daysInMonth (dt.y + 1) 1)⟩

/-- Strict calendar order on dates; `a.isAfter b` in the source is
`dateLt b a`. -/
def dateLt (a b : Date) : Bool :=
  a.y < b.y || (a.y == b.y && (a.m < b.m || (a.m == b.m && a.d < b.d)))

/-- The recurrence types stored in `Task.recurrenceType`
(`'none' | 'daily' | 'weekly' | 'monthly' | 'custom_days'`). -/
inductive RecType where
  | rnone
  | daily
  | weekly
  | monthly
  | custom_days
deriving DecidableEq

/-- The `Task` interface of `src/main.ts` (lines 6-16). Optional fields are
`Option`s; dates are embedded `Date`s. -/
structure Task where
  id : String
  text : String
  completed : Bool
  dueDate : Option Date
  scratchpad : Option String
  recurrenceType : Option RecType
  recurrenceValue : Option Nat
  recurrenceUntil : Option Date
  recurrenceExdates : Option (List Date)
deriving DecidableEq

/-- `'asc' | 'desc'` for `Category.lastSortOrder`. -/
inductive SortOrder where
  | asc
  | desc
deriving DecidableEq

/-- The `Category` interface of `src/main.ts` (lines 18-25). -/
structure Category where
  id : String
  name : String
  tasks : List Task
  isCollapsed : Option Bool
  color : Option String
  lastSortOrder : Option SortOrder
deriving DecidableEq

/-- `task.recurrenceValue || 1`: JavaScript `||` maps `undefined` and `0`
to `1`. -/
def recValue (v : Option Nat) : Nat :=
  match v with
  | none => 1
  | some n => if n == 0 then 1 else n

/-- One step of the recurrence `switch` in `toggleTask` (lines 1179-1184):
`daily` adds a day, `weekly` a week, `monthly` a calendar month,
`custom_days` adds `value` days; `'none'` matches no case and leaves the
date unchanged. -/
def stepDate (rt : RecType) (value : Nat) (d : Date) : Date :=
  match rt with
  | .rnone => d
  | .daily => d.addDays 1
  | .weekly => d.addDays 7
  | .monthly => d.addMonth
  | .custom_days => d.addDays value

/-- The exception-date retry loop of `toggleTask` (lines 1187-1196):
`while (exdates.includes(cur) && loopGuard < 100) { step; loopGuard++ }`.
`fuel` is the remaining loop budget (`100 - loopGuard`). -/
def skipLoop (rt : RecType) (value : Nat) (ex : List Date) : Nat → Date → Date
  | 0, d => d
  | fuel + 1, d =>
    if ex.contains d then skipLoop rt value ex fuel (stepDate rt value d) else d

/-- The next-occurrence computation performed by `toggleTask` for a
recurring task: one step from the anchor (the due date, or today if
absent), then the capped exception-skipping loop. -/
def computeNext (rt : RecType) (value : Nat) (ex : List Date)
    (anchor : Date) : Date :=
  skipLoop rt value ex 100 (stepDate rt value anchor)

/-- The per-task body of `TasksView.toggleTask` (lines 1174-1214): a
recurring task being checked is advanced to its next occurrence if that
occurrence is not strictly after `recurrenceUntil`, else marked completed;
any other toggle just writes the flag. -/
def toggleTaskCore (task : Task) (completed : Bool) (today : Date) : Task :=
  match task.recurrenceType with
  | some rt =>
    if completed && !(rt == RecType.rnone) then
      let anchor := task.dueDate.getD today
      let value := recValue task.recurrenceValue
      let ex := task.recurrenceExdates.getD []
      let final := computeNext rt value ex anchor
      let shouldRecur :=
        match task.recurrenceUntil with
        | some u => !(dateLt u final)
        | none => true
      if shouldRecur then { task with completed := false, dueDate := some final }
      else { task with completed := true }
    else { task with completed := completed }
  | none => { task with completed := completed }

/-- Replace the first element satisfying `p` by its image under `f`
(the `Array.prototype.find` + in-place mutation idiom of the source). -/
def updateFirst {α : Type} (p : α → Bool) (f : α → α) : List α → List α
  | [] => []
  | x :: xs => if p x then f x :: xs else x :: updateFirst p f xs

/-- `TasksView.toggleTask` (lines 1168-1219) on the in-memory category
list: find the category by id, find the task by id, apply the toggle body
to that task. -/
def toggleTask (categories : List Category) (categoryId taskId : String)
    (completed : Bool) (today : Date) : List Category :=
  updateFirst (fun c => c.id == categoryId)
    (fun category =>
      { category with
        tasks := updateFirst (fun t => t.id == taskId)
          (fun task => toggleTaskCore task completed today) category.tasks })
    categories

/-- A stable sort by a `Nat` key: elements are placed in nondecreasing key
order, equal keys keeping their original relative order. This is the
behavior of `Array.prototype.sort` (stable per the ECMAScript
specification) with the comparator `(a, b) => keyA - keyB` used at lines
219-223 and 234-238 of the source. -/
def insertByKey {α : Type} (key : α → Nat) (x : α) : List α → List α
  | [] => [x]
  | y :: ys => if key y < key x then y :: insertByKey key x ys else x :: y :: ys

/-- See `insertByKey`. -/
def sortByKey {α : Type} (key : α → Nat) : List α → List α
  | [] => []
  | x :: xs => insertByKey key x (sortByKey key xs)

/-- `new Map(localCat.tasks.map(t => [t.id, t])).get id`: a JavaScript
`Map` built from an entry list keeps the last entry for a repeated key. -/
def lookupLast (ts : List Task) (id : String) : Option Task :=
  ts.foldl (fun acc t => if t.id == id then some t else acc) none

/-- `localIdToIndex.get id` for the map built by
`localCat.tasks.forEach((t, i) => localIdToIndex.set(t.id, i))`:
the index of the last occurrence of `id`. -/
def lastIndexOfTask (ts : List Task) (id : String) : Option Nat :=
  (ts.enum).foldl (fun acc p => if p.2.id == id then some p.1 else acc) none

/-- `localCatOrder.get id` for the category-order map of lines 231-232. -/
def lastIndexOfCat (cs : List Category) (id : String) : Option Nat :=
  (cs.enum).foldl (fun acc p => if p.2.id == id then some p.1 else acc) none

/-- The task-union step of `saveCategories` (lines 200-225): replace each
disk task that also exists locally by the local version, append local
tasks absent from disk, then stably sort by the local writer's task order
with disk-only tasks keyed `999999999` (placed after). -/
def mergeTasks (diskTasks localTasks : List Task) : List Task :=
  let mergedTasks := diskTasks.map (fun dt =>
    match lookupLast localTasks dt.id with
    | some lt => lt
    | none => dt)
  let appended := localTasks.filter (fun lt =>
    !(diskTasks.any (fun dt => dt.id == lt.id)))
  sortByKey (fun t => (lastIndexOfTask localTasks t.id).getD 999999999)
    (mergedTasks ++ appended)

/-- The scalar-field overwrite of lines 195-198 plus the task union: the
disk category keeps its id but takes the local category's `name`, `color`,
`isCollapsed`, `lastSortOrder` and the merged task list. -/
def applyLocal (diskCat localCat : Category) : Category :=
  { diskCat with
    name := localCat.name
    color := localCat.color
    isCollapsed := localCat.isCollapsed
    lastSortOrder := localCat.lastSortOrder
    tasks := mergeTasks diskCat.tasks localCat.tasks }

/-- One iteration of the `categories.forEach(localCat => ...)` loop
(lines 191-229): if a merged category shares the local category's id,
update it in place (first match, as `findIndex` does); else push the
local category. -/
def mergeOne (merged : List Category) (localCat : Category) : List Category :=
  if merged.any (fun dc => dc.id == localCat.id) then
    updateFirst (fun dc => dc.id == localCat.id)
      (fun diskCat => applyLocal diskCat localCat) merged
  else merged ++ [localCat]

/-- The reconciliation merge of `SimpleTasksBlocksPlugin.saveCategories`
in shared mode (lines 178-241): start from the fresh disk read, fold the
local categories through `mergeOne`, then stably sort by the local
category order with disk-only categories keyed `999999999`. The result is
what is written back to the shared file. -/
def mergeCategories (freshCategories localCategories : List Category) :
    List Category :=
  sortByKey (fun c => (lastIndexOfCat localCategories c.id).getD 999999999)
    (localCategories.foldl mergeOne freshCategories)

/-- The shared-mode branch of `SimpleTasksBlocksPlugin.deleteTask`
(lines 419-434): re-read the disk file, find the category by id, filter
out the task by id, and write the result back. `none` means the category
was not found and no write happens. The caller's in-memory list is not an
input: the merge step is bypassed. -/
def deleteTaskShared (diskCategories : List Category)
    (categoryId taskId : String) : Option (List Category) :=
  if diskCategories.any (fun c => c.id == categoryId) then
    some (updateFirst (fun c => c.id == categoryId)
      (fun category =>
        { category with tasks := category.tasks.filter (fun t => !(t.id == taskId)) })
      diskCategories)
  else none

/-- `'local' | 'shared'` for `settings.activeContext`. -/
inductive Context where
  | localMode
  | sharedMode
deriving DecidableEq

/-- The `SimpleTasksBlocksSettings` interface (lines 27-34); an absent
`sharedFilePath` is the empty string, as in `DEFAULT_SETTINGS`. -/
structure Settings where
  categories : List Category
  confirmTaskDeletion : Bool
  sharedFilePath : String
  activeContext : Context
  futureTasksCount : Nat
deriving DecidableEq

/-- Outcome of reading and parsing the shared file in `getCategories`:
the file is missing (`fs.existsSync` is false), the read throws
(`ioError`), `JSON.parse` throws (`malformed`), or it parses and
`data.categories || []` yields `cats`. -/
inductive ReadOutcome where
  | missing
  | ioError
  | malformed
  | ok (cats : List Category)
deriving DecidableEq

/-- `isShared !== undefined ? isShared : settings.activeContext === 'shared'`. -/
def useSharedFlag (s : Settings) (isShared : Option Bool) : Bool :=
  isShared.getD (s.activeContext == Context.sharedMode)

/-- `SimpleTasksBlocksPlugin.getCategories` (lines 151-169). The second
component records whether a user-visible `Notice` was shown: the `catch`
block (read or parse failure) shows one; the missing-file fall-through
and the local-mode branch do not. All paths return normally. -/
def getCategories (s : Settings) (isShared : Option Bool)
    (read : ReadOutcome) : List Category × Bool :=
  if useSharedFlag s isShared && !(s.sharedFilePath == "") then
    match read with
    | .ok cats => (cats, false)
    | .missing => ([], false)
    | .ioError => ([], true)
    | .malformed => ([], true)
  else (s.categories, false)

/-- `findIndex` on a task list (first index whose id matches). -/
def findTaskIdx (taskId : String) : List Task → Option Nat
  | [] => none
  | t :: ts =>
    if t.id == taskId then some 0
    else (findTaskIdx taskId ts).map (· + 1)

/-- The per-category body of `SimpleTasksBlocksPlugin.duplicateTask`
(lines 402-411): find the task's index with `findIndex`, build a copy of
the task — identical in every field except the freshly generated id
(`Date.now().toString() + '-copy'`, passed in as `newId`) — and splice it
in at the next position. -/
def duplicateInCategory (taskId newId : String) (category : Category) :
    Category :=
  match findTaskIdx taskId category.tasks with
  | some i =>
    match category.tasks[i]? with
    | some taskToDuplicate =>
      { category with
        tasks := category.tasks.take (i + 1) ++
          { taskToDuplicate with id := newId } :: category.tasks.drop (i + 1) }
    | none => category
  | none => category

/-- `SimpleTasksBlocksPlugin.duplicateTask` (lines 398-414): find the
category by id and duplicate the task inside it. -/
def duplicateTask (cats : List Category) (categoryId taskId newId : String) :
    List Category :=
  updateFirst (fun c => c.id == categoryId)
    (duplicateInCategory taskId newId) cats

/-- The enumeration loop of `FutureOccurrencesModal.onOpen`
(lines 1327-1371): step from the current date; stop if the stepped date is
strictly after `recurrenceUntil`; skip it if it is an exception date; else
emit it. `fuel` is the remaining `safety` budget (`1000 - safety`), spent
on both emitted and skipped dates; `found` counts emitted dates against
`maxDisplay`. -/
def enumLoop (rt : RecType) (value : Nat) (ex : List Date)
    (until? : Option Date) (maxDisplay : Nat) :
    Nat → Nat → Date → List Date
  | 0, _, _ => []
  | fuel + 1, found, d =>
    if found < maxDisplay then
      let next := stepDate rt value d
      let afterEnd :=
        match until? with
        | some u => dateLt u next
        | none => false
      if afterEnd then []
      else if ex.contains next then
        enumLoop rt value ex until? maxDisplay fuel found next
      else next :: enumLoop rt value ex until? maxDisplay fuel (found + 1) next
    else []

/-- The `FutureOccurrencesModal` constructor (lines 1304-1309) stores
`15` in `this.count`, ignoring the `count` argument it was given
(`this.count = 15; // Force limit to 15 as requested`). -/
def modalCountOf (passedCount : Nat) : Nat := 15

/-- The list of dates displayed by `FutureOccurrencesModal.onOpen` for a
task: the enumeration starting from the due date (or today), with the
hard-coded `maxDisplay = 15` (line 1325) and `safety < 1000` budget. The
`passedCount` argument (`plugin.settings.futureTasksCount` at the call
site, line 998) is unused, mirroring the constructor override and the
literal `maxDisplay`. -/
def futureOccurrencesDisplay (task : Task) (passedCount : Nat)
    (today : Date) : List Date :=
  let rt := task.recurrenceType.getD RecType.rnone
  let value := recValue task.recurrenceValue
  let ex := task.recurrenceExdates.getD []
  let anchor := task.dueDate.getD today
  enumLoop rt value ex task.recurrenceUntil 15 1000 0 anchor

/-- The options offered by the `futureTasksCount` dropdown in
`SimpleTasksBlocksSettingTab.display` (lines 587-590):
`for (let i = 1; i <= 10; i++) dropdown.addOption(...)`. -/
def futureCountOptions : List Nat :=
  (List.range 10).map (fun i => i + 1)

/-! ## Generic lemmas about the embedding's list operations -/

theorem updateFirst_nil {α : Type} (p : α → Bool) (f : α → α) :
    updateFirst p f [] = [] := rfl

theorem updateFirst_cons {α : Type} (p : α → Bool) (f : α → α) (x : α)
    (xs : List α) :
    updateFirst p f (x :: xs) =
      if p x then f x :: xs else x :: updateFirst p f xs := rfl

theorem length_updateFirst {α : Type} (p : α → Bool) (f : α → α) :
    ∀ l : List α, (updateFirst p f l).length = l.length := by
  intro l
  induction l with
  | nil => rfl
  | cons x xs ih =>
    by_cases h : p x <;> simp [updateFirst, h, ih]

theorem map_updateFirst {α β : Type} (g : α → β) (p : α → Bool) (f : α → α)
    (hg : ∀ y, g (f y) = g y) :
    ∀ l : List α, (updateFirst p f l).map g = l.map g := by
  intro l
  induction l with
  | nil => rfl
  | cons x xs ih =>
    by_cases h : p x <;> simp [updateFirst, h, ih, hg]

theorem mem_updateFirst_of_not {α : Type} (p : α → Bool) (f : α → α)
    (c : α) : ∀ l : List α, c ∈ l → p c = false → c ∈ updateFirst p f l := by
  intro l hc hpc
  induction l with
  | nil => exact absurd hc (List.not_mem_nil c)
  | cons x xs ih =>
    rcases List.mem_cons.mp hc with h | h
    · subst h
      simp [updateFirst, hpc]
    · by_cases hx : p x
      · simp [updateFirst, hx]
        exact Or.inr h
      · simp only [updateFirst, if_neg hx]
        exact List.mem_cons.mpr (Or.inr (ih h))

theorem mem_of_mem_updateFirst_of_ne {α : Type} (p : α → Bool) (f : α → α)
    (hf : ∀ y, p y = true → p (f y) = true) (c : α) :
    ∀ l : List α, c ∈ updateFirst p f l → p c = false → c ∈ l := by
  intro l hc hpc
  induction l with
  | nil => simpa [updateFirst] using hc
  | cons x xs ih =>
    by_cases hx : p x
    · rw [updateFirst_cons, if_pos hx] at hc
      rcases List.mem_cons.mp hc with h | h
      · subst h
        exact absurd (hf x hx) (by simp [hpc])
      · exact List.mem_cons.mpr (Or.inr h)
    · rw [updateFirst_cons, if_neg hx] at hc
      rcases List.mem_cons.mp hc with h | h
      · exact List.mem_cons.mpr (Or.inl h)
      · exact List.mem_cons.mpr (Or.inr (ih h))

theorem updateFirst_append {α : Type} (p : α → Bool) (f : α → α)
    (pre : List α) (x : α) (post : List α)
    (hpre : ∀ y ∈ pre, p y = false) (hx : p x = true) :
    updateFirst p f (pre ++ x :: post) = pre ++ f x :: post := by
  induction pre with
  | nil => simp [updateFirst, hx]
  | cons y ys ih =>
    have hy : p y = false := hpre y (List.mem_cons_self y ys)
    have hrec := ih (fun z hz => hpre z (List.mem_cons.mpr (Or.inr hz)))
    simp [updateFirst_cons, hy, hrec]

theorem perm_insertByKey {α : Type} (key : α → Nat) (x : α) :
    ∀ l : List α, (insertByKey key x l).Perm (x :: l) := by
  intro l
  induction l with
  | nil => exact List.Perm.refl _
  | cons y ys ih =>
    by_cases h : key y < key x
    · simp only [insertByKey, if_pos h]
      exact (ih.cons y).trans (List.Perm.swap x y ys)
    · simp only [insertByKey, if_neg h]
      exact List.Perm.refl _

theorem perm_sortByKey {α : Type} (key : α → Nat) :
    ∀ l : List α, (sortByKey key l).Perm l := by
  intro l
  induction l with
  | nil => exact List.Perm.refl _
  | cons x xs ih =>
    exact (perm_insertByKey key x (sortByKey key xs)).trans (ih.cons x)

theorem mem_sortByKey {α : Type} (key : α → Nat) (a : α) (l : List α) :
    a ∈ sortByKey key l ↔ a ∈ l :=
  (perm_sortByKey key l).mem_iff

theorem take_append_cons {α : Type} (x : α) :
    ∀ (pre rest : List α), (pre ++ x :: rest).take (pre.length + 1) = pre ++ [x] := by
  intro pre rest
  induction pre with
  | nil => simp
  | cons y ys ih => simp [List.take_succ_cons, ih]

theorem drop_append_cons {α : Type} (x : α) :
    ∀ (pre rest : List α), (pre ++ x :: rest).drop (pre.length + 1) = rest := by
  intro pre rest
  induction pre with
  | nil => simp
  | cons y ys ih => simp [List.drop_succ_cons, ih]

/-! ## Completion-advance (`TasksView.toggleTask`) -/

/-- The next occurrence `toggleTask` computes for a task: one recurrence
step from the due date (or today), then the capped exception-skipping
loop. -/
def nextOccurrenceOf (task : Task) (today : Date) : Date :=
  computeNext (task.recurrenceType.getD RecType.rnone)
    (recValue task.recurrenceValue) (task.recurrenceExdates.getD [])
    (task.dueDate.getD today)

theorem dateLt_irrefl (a : Date) : dateLt a a = false := by
  simp [dateLt]

theorem beq_rnone_false {rt : RecType} (hne : rt ≠ RecType.rnone) :
    (rt == RecType.rnone) = false := by
  cases rt <;> simp_all

theorem nextOccurrenceOf_eq (task : Task) (today : Date) (rt : RecType)
    (hrt : task.recurrenceType = some rt) :
    nextOccurrenceOf task today =
      computeNext rt (recValue task.recurrenceValue)
        (task.recurrenceExdates.getD []) (task.dueDate.getD today) := by
  simp [nextOccurrenceOf, hrt]

theorem toggleTaskCore_advance (task : Task) (today : Date) (rt : RecType)
    (hrt : task.recurrenceType = some rt) (hne : rt ≠ RecType.rnone)
    (hok : ∀ u, task.recurrenceUntil = some u →
      dateLt u (nextOccurrenceOf task today) = false) :
    toggleTaskCore task true today =
      { task with
        completed := false
        dueDate := some (nextOccurrenceOf task today) } := by
  have hbeq := beq_rnone_false hne
  rw [nextOccurrenceOf_eq task today rt hrt]
  unfold toggleTaskCore
  rw [hrt]
  cases hu : task.recurrenceUntil with
  | none => simp [hbeq, hu]
  | some u =>
    have hlt := hok u hu
    rw [nextOccurrenceOf_eq task today rt hrt] at hlt
    simp [hbeq, hu, hlt]

theorem toggleTaskCore_terminal (task : Task) (today : Date) (rt : RecType)
    (u : Date)
    (hrt : task.recurrenceType = some rt) (hne : rt ≠ RecType.rnone)
    (hu : task.recurrenceUntil = some u)
    (hafter : dateLt u (nextOccurrenceOf task today) = true) :
    toggleTaskCore task true today = { task with completed := true } := by
  have hbeq := beq_rnone_false hne
  rw [nextOccurrenceOf_eq task today rt hrt] at hafter
  unfold toggleTaskCore
  rw [hrt]
  simp [hbeq, hu, hafter]

theorem toggleTask_map_length (cats : List Category)
    (categoryId taskId : String) (b : Bool) (today : Date) :
    (toggleTask cats categoryId taskId b today).map (fun c => c.tasks.length)
      = cats.map (fun c => c.tasks.length) := by
  unfold toggleTask
  apply map_updateFirst
  intro y
  simp [length_updateFirst]

/-- **C1.** Toggling a recurring task complete while the computed next
occurrence is within the `until` bound (or there is no `until`) leaves
`completed = false` and rewrites `dueDate` to that occurrence, reusing the
same task record (every other field unchanged); completing it `n` times
with no `until` yields `n` successive due-date advances with
`completed = false` after each; and toggling never changes any category's
task count (no duplicate rows are created). -/
theorem c1_completion_advance (task : Task) (today : Date) (rt : RecType)
    (hrt : task.recurrenceType = some rt) (hne : rt ≠ RecType.rnone) :
    ((∀ u, task.recurrenceUntil = some u →
        dateLt u (nextOccurrenceOf task today) = false) →
      toggleTaskCore task true today =
        { task with
          completed := false
          dueDate := some (nextOccurrenceOf task today) }) ∧
    (task.recurrenceUntil = none → ∀ n, 1 ≤ n →
      (fun t => toggleTaskCore t true today)^[n] task =
        { task with
          completed := false
          dueDate := some ((computeNext rt (recValue task.recurrenceValue)
            (task.recurrenceExdates.getD []))^[n] (task.dueDate.getD today)) }) ∧
    (∀ (cats : List Category) (categoryId taskId : String) (b : Bool) (n : Nat),
      ((fun cs => toggleTask cs categoryId taskId b today)^[n] cats).map
          (fun c => c.tasks.length)
        = cats.map (fun c => c.tasks.length)) := by
  refine ⟨toggleTaskCore_advance task today rt hrt hne, ?_, ?_⟩
  · intro huntil n hn
    have aux : ∀ m, (fun t => toggleTaskCore t true today)^[m + 1] task =
        { task with
          completed := false
          dueDate := some ((computeNext rt (recValue task.recurrenceValue)
            (task.recurrenceExdates.getD []))^[m + 1] (task.dueDate.getD today)) } := by
      intro m
      induction m with
      | zero =>
        rw [Function.iterate_one, Function.iterate_one]
        have h := toggleTaskCore_advance task today rt hrt hne
          (fun u hu => absurd (huntil ▸ hu) (by simp))
        rw [nextOccurrenceOf_eq task today rt hrt] at h
        exact h
      | succ k ih =>
        rw [Function.iterate_succ_apply', ih]
        have step := toggleTaskCore_advance
          { task with
            completed := false
            dueDate := some ((computeNext rt (recValue task.recurrenceValue)
              (task.recurrenceExdates.getD []))^[k + 1] (task.dueDate.getD today)) }
          today rt (by simpa using hrt) hne
          (fun u hu => absurd ((by simpa using huntil : _) ▸ hu) (by simp))
        rw [step]
        simp [nextOccurrenceOf, hrt, Function.iterate_succ_apply']
    obtain ⟨m, rfl⟩ : ∃ m, n = m + 1 :=
      ⟨n - 1, (Nat.succ_pred_eq_of_pos hn).symm⟩
    exact aux m
  · intro cats categoryId taskId b n
    induction n generalizing cats with
    | zero => rfl
    | succ k ih =>
      rw [Function.iterate_succ_apply]
      rw [ih (toggleTask cats categoryId taskId b today)]
      exact toggleTask_map_length cats categoryId taskId b today

/-- **C1 witness.** -/
theorem c1_completion_advance_witness :
    let task : Task :=
      { id := "t", text := "t", completed := false,
        dueDate := some ⟨2024, 1, 1⟩, scratchpad := none,
        recurrenceType := some RecType.daily, recurrenceValue := none,
        recurrenceUntil := none, recurrenceExdates := none }
    (task.recurrenceType = some RecType.daily) ∧
    ((∀ u, task.recurrenceUntil = some u →
        dateLt u (nextOccurrenceOf task ⟨2024, 1, 1⟩) = false) →
      toggleTaskCore task true ⟨2024, 1, 1⟩ =
        { task with
          completed := false
          dueDate := some (nextOccurrenceOf task ⟨2024, 1, 1⟩) }) ∧
    (task.recurrenceUntil = none → ∀ n, 1 ≤ n →
      (fun t => toggleTaskCore t true ⟨2024, 1, 1⟩)^[n] task =
        { task with
          completed := false
          dueDate := some ((computeNext RecType.daily
            (recValue task.recurrenceValue)
            (task.recurrenceExdates.getD []))^[n]
              (task.dueDate.getD ⟨2024, 1, 1⟩)) }) ∧
    (∀ (cats : List Category) (categoryId taskId : String) (b : Bool) (n : Nat),
      ((fun cs => toggleTask cs categoryId taskId b ⟨2024, 1, 1⟩)^[n] cats).map
          (fun c => c.tasks.length)
        = cats.map (fun c => c.tasks.length)) :=
  ⟨rfl, c1_completion_advance _ ⟨2024, 1, 1⟩ RecType.daily rfl (by decide)⟩

/-- **C2.** Toggling complete a recurring task whose computed next
occurrence is strictly after `until` sets `completed = true` and leaves
`dueDate` (and every other field of the task, every other task, and every
other category) unchanged. -/
theorem c2_recurrence_exhausted (pre post : List Category) (cat : Category)
    (tpre tpost : List Task) (task : Task) (categoryId taskId : String)
    (today : Date) (rt : RecType) (u : Date)
    (hpre : ∀ c ∈ pre, (c.id == categoryId) = false)
    (hcat : (cat.id == categoryId) = true)
    (htpre : ∀ t ∈ tpre, (t.id == taskId) = false)
    (htask : (task.id == taskId) = true)
    (hct : cat.tasks = tpre ++ task :: tpost)
    (hrt : task.recurrenceType = some rt) (hne : rt ≠ RecType.rnone)
    (hu : task.recurrenceUntil = some u)
    (hafter : dateLt u (nextOccurrenceOf task today) = true) :
    toggleTask (pre ++ cat :: post) categoryId taskId true today =
      pre ++ { cat with tasks := tpre ++ { task with completed := true } :: tpost }
        :: post := by
  unfold toggleTask
  rw [updateFirst_append _ _ pre cat post hpre hcat, hct,
    updateFirst_append _ _ tpre task tpost htpre htask,
    toggleTaskCore_terminal task today rt u hrt hne hu hafter]

/-- **C2 witness.** -/
theorem c2_recurrence_exhausted_witness :
    let task : Task :=
      { id := "t1", text := "t", completed := false,
        dueDate := some ⟨2024, 1, 1⟩, scratchpad := none,
        recurrenceType := some RecType.daily, recurrenceValue := none,
        recurrenceUntil := some ⟨2024, 1, 1⟩, recurrenceExdates := none }
    let cat : Category :=
      { id := "c1", name := "c", tasks := [task], isCollapsed := none,
        color := none, lastSortOrder := none }
    toggleTask [cat] "c1" "t1" true ⟨2024, 1, 1⟩ =
      [{ cat with tasks := [{ task with completed := true }] }] := by
  intro task cat
  have h := c2_recurrence_exhausted [] [] cat [] [] task "c1" "t1" ⟨2024, 1, 1⟩
    RecType.daily ⟨2024, 1, 1⟩ (by intro c hc; cases hc) (by decide)
    (by intro t ht; cases ht) (by decide) rfl rfl (by decide) rfl (by decide)
  simpa using h

/-! ## The 100-iteration cap on exception-date skipping (C7) -/

theorem skipLoop_all_mem (rt : RecType) (value : Nat) (ex : List Date) :
    ∀ (fuel : Nat) (d : Date),
      (∀ k, k < fuel → (stepDate rt value)^[k] d ∈ ex) →
      skipLoop rt value ex fuel d = (stepDate rt value)^[fuel] d := by
  intro fuel
  induction fuel with
  | zero => intro d _; rfl
  | succ k ih =>
    intro d h
    have h0 : d ∈ ex := by simpa using h 0 (Nat.succ_pos k)
    have hc : ex.contains d = true := by
      simpa [List.contains] using (List.elem_iff).mpr h0
    rw [skipLoop, if_pos hc,
      ih (stepDate rt value d)
        (fun j hj => by
          simpa [Function.iterate_succ_apply] using h (j + 1) (Nat.succ_lt_succ hj)),
      ← Function.iterate_succ_apply]

/-- Anchor due date used by the C7 instances. -/
def c7Base : Date := ⟨2024, 1, 1⟩

/-- An exception set containing the next 101 daily steps from `c7Base`. -/
def c7Ex : List Date := (List.range 101).map (fun i => c7Base.addDays (i + 1))

/-- A daily-recurring task with no `until` whose exception set covers every
date the capped retry loop can reach. -/
def c7Task : Task :=
  { id := "t", text := "t", completed := false, dueDate := some c7Base,
    scratchpad := none, recurrenceType := some RecType.daily,
    recurrenceValue := none, recurrenceUntil := none,
    recurrenceExdates := some c7Ex }

theorem stepDaily_eq_nextDay (value : Nat) :
    stepDate RecType.daily value = Date.nextDay := by
  funext d
  rfl

theorem c7_next_eq : nextOccurrenceOf c7Task c7Base = c7Base.addDays 101 := by
  rw [nextOccurrenceOf_eq c7Task c7Base RecType.daily rfl]
  show skipLoop RecType.daily (recValue c7Task.recurrenceValue) c7Ex 100
      (stepDate RecType.daily (recValue c7Task.recurrenceValue) c7Base) =
    c7Base.addDays 101
  rw [skipLoop_all_mem _ _ _ 100 _ (fun k hk => by
    rw [stepDaily_eq_nextDay, ← Function.iterate_succ_apply]
    exact List.mem_map.mpr ⟨k, List.mem_range.mpr (by omega), rfl⟩)]
  rw [stepDaily_eq_nextDay, ← Function.iterate_succ_apply]
  rfl

/-- **C7 counterexample.** A daily task anchored at 2024-01-01 whose
exception set contains the next 101 step dates: toggling it complete does
*not* treat the capped loop as "no further occurrence" — the task is
advanced (`completed = false`) and its new due date is the 101st stepped
date, which is itself in the exception set. -/
theorem c7_counterexample :
    (toggleTaskCore c7Task true c7Base).completed = false ∧
    (toggleTaskCore c7Task true c7Base).dueDate = some (c7Base.addDays 101) ∧
    c7Base.addDays 101 ∈ c7Ex := by
  have h := toggleTaskCore_advance c7Task c7Base RecType.daily rfl (by decide)
    (fun u hu => by simp [c7Task] at hu)
  rw [c7_next_eq] at h
  rw [h]
  exact ⟨rfl, rfl, List.mem_map.mpr ⟨100, List.mem_range.mpr (by omega), rfl⟩⟩

/-- **C7 (amended).** For a recurring task (no `until`) whose exception set
contains every stepped date in the next 100 steps from the anchor, the
completion-advance loop terminates via the 100-iteration cap and the task
is advanced to the 101st stepped date with `completed = false` — even when
that date is itself excluded. Hitting the cap is not treated as "no
further occurrence" (only the `until` bound produces that); termination is
guaranteed, with no crash or unbounded loop. -/
theorem c7_cap_behavior (task : Task) (today : Date) (rt : RecType)
    (hrt : task.recurrenceType = some rt) (hne : rt ≠ RecType.rnone)
    (hu : task.recurrenceUntil = none)
    (hall : ∀ k, k < 100 →
      (stepDate rt (recValue task.recurrenceValue))^[k + 1]
          (task.dueDate.getD today) ∈ task.recurrenceExdates.getD []) :
    toggleTaskCore task true today =
      { task with
        completed := false
        dueDate := some ((stepDate rt (recValue task.recurrenceValue))^[101]
          (task.dueDate.getD today)) } := by
  have hnext : nextOccurrenceOf task today =
      (stepDate rt (recValue task.recurrenceValue))^[101]
        (task.dueDate.getD today) := by
    rw [nextOccurrenceOf_eq task today rt hrt]
    unfold computeNext
    rw [skipLoop_all_mem _ _ _ 100 _ (fun k hk => by
      simpa [Function.iterate_succ_apply] using hall k hk)]
    rw [← Function.iterate_succ_apply]
  have h := toggleTaskCore_advance task today rt hrt hne
    (fun u hu' => absurd (hu ▸ hu') (by simp))
  rw [hnext] at h
  exact h

/-- **C7 witness.** -/
theorem c7_cap_behavior_witness :
    toggleTaskCore c7Task true c7Base =
      { c7Task with
        completed := false
        dueDate := some ((stepDate RecType.daily
          (recValue c7Task.recurrenceValue))^[101] (c7Task.dueDate.getD c7Base)) } :=
  c7_cap_behavior c7Task c7Base RecType.daily rfl (by decide) rfl
    (fun k hk => by
      rw [stepDaily_eq_nextDay]
      exact List.mem_map.mpr ⟨k, List.mem_range.mpr (by omega), rfl⟩)

/-! ## The `until` bound (C8) -/

theorem enumLoop_succ_some (rt : RecType) (value : Nat) (ex : List Date)
    (u : Date) (maxD fuel found : Nat) (d : Date) :
    enumLoop rt value ex (some u) maxD (fuel + 1) found d =
      if found < maxD then
        if dateLt u (stepDate rt value d) then []
        else if ex.contains (stepDate rt value d) then
          enumLoop rt value ex (some u) maxD fuel found (stepDate rt value d)
        else stepDate rt value d ::
          enumLoop rt value ex (some u) maxD fuel (found + 1) (stepDate rt value d)
      else [] := rfl

theorem enumLoop_until_bound (rt : RecType) (value : Nat) (ex : List Date)
    (u : Date) (maxD : Nat) :
    ∀ (fuel found : Nat) (d x : Date),
      x ∈ enumLoop rt value ex (some u) maxD fuel found d →
      dateLt u x = false := by
  intro fuel
  induction fuel with
  | zero => intro found d x hx; simp [enumLoop] at hx
  | succ k ih =>
    intro found d x hx
    rw [enumLoop_succ_some] at hx
    by_cases hf : found < maxD
    · rw [if_pos hf] at hx
      by_cases hae : dateLt u (stepDate rt value d) = true
      · rw [if_pos hae] at hx
        simp at hx
      · have hae' : dateLt u (stepDate rt value d) = false := by
          simpa using hae
        rw [if_neg (by simp [hae'])] at hx
        by_cases hc : ex.contains (stepDate rt value d) = true
        · rw [if_pos hc] at hx
          exact ih found (stepDate rt value d) x hx
        · rw [if_neg hc] at hx
          rcases List.mem_cons.mp hx with h | h
          · subst h; exact hae'
          · exact ih (found + 1) (stepDate rt value d) x h
    · rw [if_neg hf] at hx
      simp at hx

/-- **C8.** The `until` bound holds everywhere: (1) no date produced by the
future-occurrence enumeration is strictly after `until`; (2) whenever a
recurring task with an `until` is advanced by completion (its `completed`
flag stays `false`), the written due date is not strictly after `until`;
(3) a stepped date exactly equal to `until` that is not in the exception
set is emitted by the enumeration; (4) a computed next occurrence exactly
equal to `until` is written by completion-advance with
`completed = false`. -/
theorem c8_until_bound :
    (∀ (rt : RecType) (value : Nat) (ex : List Date) (u : Date)
      (maxD fuel found : Nat) (d : Date),
      ∀ x ∈ enumLoop rt value ex (some u) maxD fuel found d,
        dateLt u x = false) ∧
    (∀ (task : Task) (today : Date) (rt : RecType) (u : Date),
      task.recurrenceType = some rt → rt ≠ RecType.rnone →
      task.recurrenceUntil = some u →
      (toggleTaskCore task true today).completed = false →
      ∃ v, (toggleTaskCore task true today).dueDate = some v ∧
        dateLt u v = false) ∧
    (∀ (rt : RecType) (value : Nat) (ex : List Date) (u : Date)
      (maxD fuel found : Nat) (d : Date),
      found < maxD → stepDate rt value d = u → ex.contains u = false →
      u ∈ enumLoop rt value ex (some u) maxD (fuel + 1) found d) ∧
    (∀ (task : Task) (today : Date) (rt : RecType) (u : Date),
      task.recurrenceType = some rt → rt ≠ RecType.rnone →
      task.recurrenceUntil = some u → nextOccurrenceOf task today = u →
      toggleTaskCore task true today =
        { task with completed := false, dueDate := some u }) := by
  refine ⟨?_, ?_, ?_, ?_⟩
  · intro rt value ex u maxD fuel found d x hx
    exact enumLoop_until_bound rt value ex u maxD fuel found d x hx
  · intro task today rt u hrt hne hu hcomp
    by_cases hafter : dateLt u (nextOccurrenceOf task today) = true
    · rw [toggleTaskCore_terminal task today rt u hrt hne hu hafter] at hcomp
      simp at hcomp
    · have hok : ∀ u', task.recurrenceUntil = some u' →
          dateLt u' (nextOccurrenceOf task today) = false := by
        intro u' hu'
        rw [hu] at hu'
        cases hu'
        simpa using hafter
      rw [toggleTaskCore_advance task today rt hrt hne hok]
      exact ⟨nextOccurrenceOf task today, rfl, by simpa using hafter⟩
  · intro rt value ex u maxD fuel found d hf hstep hc
    rw [enumLoop_succ_some, if_pos hf, hstep, dateLt_irrefl u, hc]
    simp
  · intro task today rt u hrt hne hu hnext
    have h := toggleTaskCore_advance task today rt hrt hne
      (fun u' hu' => by
        rw [hu] at hu'
        cases hu'
        rw [hnext]
        exact dateLt_irrefl u)
    rw [hnext] at h
    exact h

/-- Due date of the C8 witness tasks. -/
def c8u : Date := ⟨2024, 1, 4⟩

/-- A daily task with `until` 2024-01-04 whose next occurrence (2024-01-02)
is within the bound. -/
def c8Task : Task :=
  { id := "t", text := "t", completed := false, dueDate := some ⟨2024, 1, 1⟩,
    scratchpad := none, recurrenceType := some RecType.daily,
    recurrenceValue := none, recurrenceUntil := some c8u,
    recurrenceExdates := none }

/-- A daily task whose next occurrence falls exactly on its `until`. -/
def c8TaskEdge : Task :=
  { id := "t", text := "t", completed := false, dueDate := some ⟨2024, 1, 3⟩,
    scratchpad := none, recurrenceType := some RecType.daily,
    recurrenceValue := none, recurrenceUntil := some c8u,
    recurrenceExdates := none }

/-- **C8 witness.** -/
theorem c8_until_bound_witness :
    (∀ x ∈ enumLoop RecType.daily 1 [] (some c8u) 15 1000 0 ⟨2024, 1, 1⟩,
      dateLt c8u x = false) ∧
    (∃ v, (toggleTaskCore c8Task true ⟨2024, 1, 1⟩).dueDate = some v ∧
      dateLt c8u v = false) ∧
    (c8u ∈ enumLoop RecType.daily 1 [] (some c8u) 15 1000 0 ⟨2024, 1, 3⟩) ∧
    (toggleTaskCore c8TaskEdge true ⟨2024, 1, 3⟩ =
      { c8TaskEdge with completed := false, dueDate := some c8u }) := by
  refine ⟨?_, ?_, ?_, ?_⟩
  · exact c8_until_bound.1 RecType.daily 1 [] c8u 15 1000 0 ⟨2024, 1, 1⟩
  · exact c8_until_bound.2.1 c8Task ⟨2024, 1, 1⟩ RecType.daily c8u rfl
      (by decide) rfl (by decide)
  · exact c8_until_bound.2.2.1 RecType.daily 1 [] c8u 15 999 0 ⟨2024, 1, 3⟩
      (by decide) (by decide) rfl
  · exact c8_until_bound.2.2.2 c8TaskEdge ⟨2024, 1, 3⟩ RecType.daily c8u rfl
      (by decide) rfl (by decide)

/-! ## Occurrence-preview limit (C9) -/

theorem enumLoop_succ_eq (rt : RecType) (value : Nat) (ex : List Date)
    (until? : Option Date) (maxD fuel found : Nat) (d : Date) :
    enumLoop rt value ex until? maxD (fuel + 1) found d =
      if found < maxD then
        if (match until? with
            | some u => dateLt u (stepDate rt value d)
            | none => false) then []
        else if ex.contains (stepDate rt value d) then
          enumLoop rt value ex until? maxD fuel found (stepDate rt value d)
        else stepDate rt value d ::
          enumLoop rt value ex until? maxD fuel (found + 1) (stepDate rt value d)
      else [] := rfl

theorem enumLoop_length_le (rt : RecType) (value : Nat) (ex : List Date)
    (until? : Option Date) (maxD : Nat) :
    ∀ (fuel found : Nat) (d : Date),
      (enumLoop rt value ex until? maxD fuel found d).length ≤ maxD - found := by
  have step : ∀ (k found : Nat) (d : Date),
      (∀ (found' : Nat) (d' : Date),
        (enumLoop rt value ex until? maxD k found' d').length ≤ maxD - found') →
      (enumLoop rt value ex until? maxD (k + 1) found d).length ≤ maxD - found := by
    intro k found d ih
    rw [enumLoop_succ_eq]
    by_cases hf : found < maxD
    · rw [if_pos hf]
      rcases until? with _ | u
      · by_cases hc : ex.contains (stepDate rt value d) = true
        · simp only [if_pos hc]
          exact le_trans (le_of_eq (by simp)) (ih found (stepDate rt value d))
        · simp only [Bool.false_eq_true, if_false, if_neg hc, List.length_cons]
          have := ih (found + 1) (stepDate rt value d)
          omega
      · by_cases hb : dateLt u (stepDate rt value d) = true
        · rw [if_pos hb]; simp
        · rw [if_neg hb]
          by_cases hc : ex.contains (stepDate rt value d) = true
          · rw [if_pos hc]
            exact ih found (stepDate rt value d)
          · rw [if_neg hc]
            simp only [List.length_cons]
            have := ih (found + 1) (stepDate rt value d)
            omega
    · rw [if_neg hf]; simp
  intro fuel
  induction fuel with
  | zero => intro found d; simp [enumLoop]
  | succ k ih => intro found d; exact step k found d ih

/-- The daily task used as the C9 counterexample input. -/
def c9Task : Task :=
  { id := "t", text := "t", completed := false, dueDate := some ⟨2024, 1, 1⟩,
    scratchpad := none, recurrenceType := some RecType.daily,
    recurrenceValue := none, recurrenceUntil := none,
    recurrenceExdates := none }

/-- **C9 counterexample.** With `futureTasksCount = 3` and an unbounded
daily recurrence (plenty of occurrences), the preview shows 15 dates, not
3: the configured count does not bound the enumeration. -/
theorem c9_counterexample :
    (futureOccurrencesDisplay c9Task 3 ⟨2024, 1, 1⟩).length = 15 ∧
    ¬ (futureOccurrencesDisplay c9Task 3 ⟨2024, 1, 1⟩).length = 3 := by
  decide

/-- **C9 (amended).** The future-occurrence enumeration produces up to 15
dates — a hard-coded limit: the modal constructor overrides the passed
`futureTasksCount` with 15 and the display loop uses the literal
`maxDisplay = 15` — and is independent of the configured count; it stops
early when `until` is reached (no displayed date is strictly after
`until`); the settings dropdown offers only the values 1-10. -/
theorem c9_preview_limit (task : Task) (count otherCount : Nat)
    (today : Date) :
    futureOccurrencesDisplay task count today
      = futureOccurrencesDisplay task otherCount today ∧
    (futureOccurrencesDisplay task count today).length ≤ 15 ∧
    modalCountOf count = 15 ∧
    (∀ u, task.recurrenceUntil = some u →
      ∀ x ∈ futureOccurrencesDisplay task count today, dateLt u x = false) ∧
    (∀ x ∈ futureCountOptions, x ≤ 10) := by
  refine ⟨rfl, ?_, rfl, ?_, by decide⟩
  · have h := enumLoop_length_le (task.recurrenceType.getD RecType.rnone)
      (recValue task.recurrenceValue) (task.recurrenceExdates.getD [])
      task.recurrenceUntil 15 1000 0 (task.dueDate.getD today)
    simpa [futureOccurrencesDisplay] using h
  · intro u hu x hx
    unfold futureOccurrencesDisplay at hx
    rw [hu] at hx
    exact enumLoop_until_bound _ _ _ u 15 1000 0 _ x hx

/-- **C9 witness.** -/
theorem c9_preview_limit_witness :
    futureOccurrencesDisplay c9Task 3 ⟨2024, 1, 1⟩
      = futureOccurrencesDisplay c9Task 7 ⟨2024, 1, 1⟩ ∧
    (futureOccurrencesDisplay c9Task 3 ⟨2024, 1, 1⟩).length ≤ 15 ∧
    modalCountOf 3 = 15 := by
  have h := c9_preview_limit c9Task 3 7 ⟨2024, 1, 1⟩
  exact ⟨h.1, h.2.1, h.2.2.1⟩

/-! ## Read contract of `getCategories` (C6) -/

/-- Shared-mode settings with a configured path, used by the C6
counterexample. -/
def c6Settings : Settings :=
  { categories := [], confirmTaskDeletion := false, sharedFilePath := "p",
    activeContext := Context.sharedMode, futureTasksCount := 5 }

/-- **C6 counterexample.** In shared mode with a configured path, a
*missing* file makes `getCategories` return the empty list with **no**
user-visible notice (the `Notice` is only raised in the `catch` block,
which a failed `existsSync` check never reaches) — contradicting the claim
that a missing file also surfaces an error notice. -/
theorem c6_counterexample :
    (getCategories c6Settings none ReadOutcome.missing).1 = [] ∧
    ¬ ((getCategories c6Settings none ReadOutcome.missing).2 = true) := by
  decide

/-- **C6 (amended).** In shared mode with a configured path: a read error
or a parse failure returns the empty list *and* surfaces a user-visible
notice; a missing file returns the empty list silently (no notice); a
successful parse returns the parsed list. No path throws: the function
always returns. In local mode (or without a configured path) the
in-memory configuration list is returned directly with no parse step. -/
theorem c6_read_contract (s : Settings) (isShared : Option Bool)
    (read : ReadOutcome) :
    ((useSharedFlag s isShared && !(s.sharedFilePath == "")) = true →
      getCategories s isShared ReadOutcome.missing = ([], false) ∧
      getCategories s isShared ReadOutcome.ioError = ([], true) ∧
      getCategories s isShared ReadOutcome.malformed = ([], true) ∧
      ∀ cats, getCategories s isShared (ReadOutcome.ok cats) = (cats, false)) ∧
    ((useSharedFlag s isShared && !(s.sharedFilePath == "")) = false →
      getCategories s isShared read = (s.categories, false)) := by
  constructor
  · intro h
    refine ⟨?_, ?_, ?_, fun cats => ?_⟩ <;> simp [getCategories, h]
  · intro h
    simp [getCategories, h]

/-- **C6 witness.** -/
theorem c6_read_contract_witness :
    getCategories c6Settings none ReadOutcome.missing = ([], false) ∧
    getCategories c6Settings none ReadOutcome.ioError = ([], true) ∧
    getCategories c6Settings none ReadOutcome.malformed = ([], true) := by
  have h := (c6_read_contract c6Settings none ReadOutcome.missing).1 (by decide)
  exact ⟨h.1, h.2.1, h.2.2.1⟩

/-! ## Task duplication (C10) -/

theorem findTaskIdx_append (taskId : String) (tpre : List Task) (task : Task)
    (tpost : List Task)
    (htpre : ∀ t ∈ tpre, (t.id == taskId) = false)
    (htask : (task.id == taskId) = true) :
    findTaskIdx taskId (tpre ++ task :: tpost) = some tpre.length := by
  induction tpre with
  | nil => simp [findTaskIdx, htask]
  | cons x xs ih =>
    have hx := htpre x (List.mem_cons_self x xs)
    simp [findTaskIdx, hx,
      ih (fun t ht => htpre t (List.mem_cons.mpr (Or.inr ht)))]

theorem getElem?_append_len {α : Type} (pre : List α) (x : α)
    (post : List α) : (pre ++ x :: post)[pre.length]? = some x := by
  induction pre with
  | nil => simp
  | cons y ys ih => simpa using ih

theorem duplicateInCategory_eq (cat : Category) (tpre tpost : List Task)
    (task : Task) (taskId newId : String)
    (htpre : ∀ t ∈ tpre, (t.id == taskId) = false)
    (htask : (task.id == taskId) = true)
    (hct : cat.tasks = tpre ++ task :: tpost) :
    duplicateInCategory taskId newId cat =
      { cat with tasks := tpre ++ task :: { task with id := newId } :: tpost } := by
  unfold duplicateInCategory
  rw [hct, findTaskIdx_append taskId tpre task tpost htpre htask]
  simp only [getElem?_append_len, take_append_cons, drop_append_cons]
  simp

/-- **C10.** `duplicateTask` on a category containing a task with the
target id inserts exactly one new task immediately after it, equal to it
in every field (text, completed, due date, scratchpad, recurrence fields)
except the freshly generated id; every other task, the category's other
fields, and every other category are unchanged. -/
theorem c10_duplicate_insert (pre post : List Category) (cat : Category)
    (tpre tpost : List Task) (task : Task)
    (categoryId taskId newId : String)
    (hpre : ∀ c ∈ pre, (c.id == categoryId) = false)
    (hcat : (cat.id == categoryId) = true)
    (htpre : ∀ t ∈ tpre, (t.id == taskId) = false)
    (htask : (task.id == taskId) = true)
    (hct : cat.tasks = tpre ++ task :: tpost) :
    duplicateTask (pre ++ cat :: post) categoryId taskId newId =
      pre ++ { cat with
        tasks := tpre ++ task :: { task with id := newId } :: tpost } :: post := by
  unfold duplicateTask
  rw [updateFirst_append _ _ pre cat post hpre hcat,
    duplicateInCategory_eq cat tpre tpost task taskId newId htpre htask hct]

/-- **C10 witness.** -/
theorem c10_duplicate_insert_witness :
    let task : Task :=
      { id := "t1", text := "a task", completed := false,
        dueDate := some ⟨2024, 1, 1⟩, scratchpad := some "note",
        recurrenceType := some RecType.weekly, recurrenceValue := some 2,
        recurrenceUntil := none, recurrenceExdates := some [] }
    let other : Task :=
      { id := "t2", text := "other", completed := true, dueDate := none,
        scratchpad := none, recurrenceType := none, recurrenceValue := none,
        recurrenceUntil := none, recurrenceExdates := none }
    let cat : Category :=
      { id := "c1", name := "c", tasks := [task, other], isCollapsed := none,
        color := none, lastSortOrder := none }
    duplicateTask [cat] "c1" "t1" "fresh-copy" =
      [{ cat with tasks := [task, { task with id := "fresh-copy" }, other] }] := by
  intro task other cat
  have h := c10_duplicate_insert [] [] cat [] [other] task "c1" "t1" "fresh-copy"
    (by intro c hc; cases hc) (by decide) (by intro t ht; cases ht) (by decide) rfl
  simpa using h

/-! ## Reconciliation merge (C3, C4) -/

theorem applyLocal_id (diskCat localCat : Category) :
    (applyLocal diskCat localCat).id = diskCat.id := rfl

theorem filter_updateFirst_none {α : Type} (p q : α → Bool) (f : α → α)
    (h : ∀ y, p y = true → q y = false ∧ q (f y) = false) :
    ∀ l : List α, (updateFirst p f l).filter q = l.filter q := by
  intro l
  induction l with
  | nil => rfl
  | cons x xs ih =>
    by_cases hx : p x = true
    · rcases h x hx with ⟨h1, h2⟩
      simp [updateFirst_cons, hx, List.filter_cons, h1, h2]
    · simp only [updateFirst_cons, if_neg hx, List.filter_cons]
      by_cases hq : q x = true
      · simp [hq, ih]
      · simp [hq, ih]

theorem filter_mergeOne_ne (m : List Category) (lc : Category) (i : String)
    (h : (lc.id == i) = false) :
    (mergeOne m lc).filter (fun c => c.id == i)
      = m.filter (fun c => c.id == i) := by
  unfold mergeOne
  by_cases ha : m.any (fun dc => dc.id == lc.id) = true
  · rw [if_pos ha]
    apply filter_updateFirst_none
    intro y hy
    have hyid : y.id = lc.id := by simpa using hy
    refine ⟨?_, ?_⟩
    · show (y.id == i) = false
      rw [hyid]
      exact h
    · show ((applyLocal y lc).id == i) = false
      rw [applyLocal_id, hyid]
      exact h
  · rw [if_neg ha, List.filter_append]
    simp [h]

theorem filter_foldl_ne (i : String) :
    ∀ (locals m : List Category),
      (∀ l' ∈ locals, (l'.id == i) = false) →
      (List.foldl mergeOne m locals).filter (fun c => c.id == i)
        = m.filter (fun c => c.id == i) := by
  intro locals
  induction locals with
  | nil => intro m _; rfl
  | cons l' rest ih =>
    intro m h
    rw [List.foldl_cons,
      ih (mergeOne m l') (fun x hx => h x (List.mem_cons.mpr (Or.inr hx))),
      filter_mergeOne_ne m l' i (h l' (List.mem_cons_self l' rest))]

theorem filter_single_of_nodup (dc : Category) :
    ∀ m : List Category, (m.map Category.id).Nodup → dc ∈ m →
      m.filter (fun c => c.id == dc.id) = [dc] := by
  intro m
  induction m with
  | nil => intro _ hdc; exact absurd hdc (List.not_mem_nil dc)
  | cons y ys ih =>
    intro hnd hdc
    rw [List.map_cons, List.nodup_cons] at hnd
    rcases List.mem_cons.mp hdc with h | h
    · subst h
      rw [List.filter_cons, if_pos (by simp)]
      have : ys.filter (fun c => c.id == dc.id) = [] := by
        apply List.filter_eq_nil_iff.mpr
        intro z hz hzq
        exact hnd.1 (by
          have : z.id = dc.id := by simpa using hzq
          rw [← this]
          exact List.mem_map_of_mem Category.id hz)
      rw [this]
    · have hy : (y.id == dc.id) = false := by
        by_contra hxy
        have hyq : y.id = dc.id := by
          have : (y.id == dc.id) = true := by
            cases hb : (y.id == dc.id) with
            | true => rfl
            | false => exact absurd hb hxy
          simpa using this
        exact hnd.1 (hyq ▸ List.mem_map_of_mem Category.id h)
      rw [List.filter_cons, if_neg (by simp [hy])]
      exact ih hnd.2 h

theorem filter_mergeOne_hit (m : List Category) (lc dc : Category)
    (hfil : m.filter (fun c => c.id == lc.id) = [dc]) :
    (mergeOne m lc).filter (fun c => c.id == lc.id)
      = [applyLocal dc lc] := by
  have hdc_mem : dc ∈ m.filter (fun c => c.id == lc.id) := by
    rw [hfil]; exact List.mem_cons_self _ _
  have hsplit := List.mem_filter.mp hdc_mem
  have ha : m.any (fun c => c.id == lc.id) = true :=
    List.any_eq_true.mpr ⟨dc, hsplit.1, hsplit.2⟩
  unfold mergeOne
  rw [if_pos ha]
  clear ha hsplit hdc_mem
  induction m with
  | nil => simp at hfil
  | cons y ys ih =>
    rw [List.filter_cons] at hfil
    by_cases hy : (y.id == lc.id) = true
    · rw [if_pos (by simp [hy])] at hfil
      have hyd : y = dc := (List.cons_eq_cons.mp hfil).1
      have hys : ys.filter (fun c => c.id == lc.id) = [] :=
        (List.cons_eq_cons.mp hfil).2
      rw [updateFirst_cons, if_pos hy, List.filter_cons,
        if_pos (by rw [applyLocal_id]; simp [hy]), hys, hyd]
    · have hy' : (y.id == lc.id) = false := by
        cases hb : (y.id == lc.id) with
        | true => exact absurd hb hy
        | false => rfl
      rw [if_neg (by simp [hy'])] at hfil
      rw [updateFirst_cons, if_neg (by simp [hy']), List.filter_cons,
        if_neg (by simp [hy'])]
      exact ih hfil

theorem mergeOne_not_found (m : List Category) (lc : Category)
    (ha : m.any (fun dc => dc.id == lc.id) = false) :
    mergeOne m lc = m ++ [lc] := by
  unfold mergeOne
  rw [ha]
  simp

theorem mem_mergeOne (m : List Category) (lc c : Category)
    (hne : (c.id == lc.id) = false) (hc : c ∈ m) : c ∈ mergeOne m lc := by
  unfold mergeOne
  by_cases ha : m.any (fun dc => dc.id == lc.id) = true
  · rw [if_pos ha]
    exact mem_updateFirst_of_not _ _ c m hc hne
  · rw [if_neg ha]
    exact List.mem_append_left _ hc

theorem mem_foldl_merge (c : Category) :
    ∀ (locals m : List Category), c ∈ m →
      (∀ l' ∈ locals, (c.id == l'.id) = false) →
      c ∈ List.foldl mergeOne m locals := by
  intro locals
  induction locals with
  | nil => intro m hc _; exact hc
  | cons l' rest ih =>
    intro m hc h
    rw [List.foldl_cons]
    refine ih (mergeOne m l') ?_
      (fun x hx => h x (List.mem_cons.mpr (Or.inr hx)))
    exact mem_mergeOne m l' c (h l' (List.mem_cons_self _ _)) hc

theorem applyLocal_mem_merge (fresh locl : List Category) (dc lc : Category)
    (hf : (fresh.map Category.id).Nodup) (hl : (locl.map Category.id).Nodup)
    (hdc : dc ∈ fresh) (hlc : lc ∈ locl) (heq : dc.id = lc.id) :
    applyLocal dc lc ∈ mergeCategories fresh locl := by
  obtain ⟨pre, post, rfl⟩ := List.append_of_mem hlc
  rw [List.map_append, List.map_cons] at hl
  have hdisj := (List.nodup_append.mp hl).2.2
  have hpost_nodup := (List.nodup_append.mp hl).2.1
  have hpre : ∀ y ∈ pre, (y.id == lc.id) = false := by
    intro y hy
    cases hb : (y.id == lc.id) with
    | false => rfl
    | true =>
      have hyid : y.id = lc.id := by simpa using hb
      exact absurd (List.mem_cons_self lc.id (post.map Category.id))
        (fun hm => hdisj (List.mem_map_of_mem Category.id hy) (hyid ▸ hm))
  have hpost : ∀ y ∈ post, (y.id == lc.id) = false := by
    intro y hy
    cases hb : (y.id == lc.id) with
    | false => rfl
    | true =>
      have hyid : y.id = lc.id := by simpa using hb
      exact absurd (hyid ▸ List.mem_map_of_mem Category.id hy)
        (List.nodup_cons.mp hpost_nodup).1
  unfold mergeCategories
  rw [List.foldl_append, List.foldl_cons]
  have h1 : (List.foldl mergeOne fresh pre).filter (fun c => c.id == lc.id)
      = [dc] := by
    rw [filter_foldl_ne lc.id pre fresh hpre]
    have hsingle := filter_single_of_nodup dc fresh hf hdc
    rw [heq] at hsingle
    exact hsingle
  have h2 := filter_mergeOne_hit (List.foldl mergeOne fresh pre) lc dc h1
  have h3 : (List.foldl mergeOne
      (mergeOne (List.foldl mergeOne fresh pre) lc) post).filter
        (fun c => c.id == lc.id) = [applyLocal dc lc] := by
    rw [filter_foldl_ne lc.id post _ hpost, h2]
  have hmem : applyLocal dc lc ∈ List.foldl mergeOne
      (mergeOne (List.foldl mergeOne fresh pre) lc) post := by
    apply List.mem_of_mem_filter (p := fun c => c.id == lc.id)
    rw [h3]
    exact List.mem_cons_self _ _
  exact (mem_sortByKey _ _ _).mpr hmem

theorem lookupLast_no_match (i : String) :
    ∀ (ts : List Task) (acc : Option Task),
      (∀ t ∈ ts, (t.id == i) = false) →
      ts.foldl (fun acc t => if t.id == i then some t else acc) acc = acc := by
  intro ts
  induction ts with
  | nil => intro acc _; rfl
  | cons t ts' ih =>
    intro acc h
    rw [List.foldl_cons]
    have ht := h t (List.mem_cons_self _ _)
    simp only [ht, Bool.false_eq_true, if_false]
    exact ih acc (fun z hz => h z (List.mem_cons.mpr (Or.inr hz)))

theorem lookupLast_foldl_nodup (lt : Task) :
    ∀ (ts : List Task) (acc : Option Task),
      (ts.map Task.id).Nodup → lt ∈ ts →
      ts.foldl (fun acc t => if t.id == lt.id then some t else acc) acc
        = some lt := by
  intro ts
  induction ts with
  | nil => intro acc _ h; exact absurd h (List.not_mem_nil lt)
  | cons t ts' ih =>
    intro acc hnd hlt
    rw [List.map_cons, List.nodup_cons] at hnd
    rw [List.foldl_cons]
    rcases List.mem_cons.mp hlt with h | h
    · subst h
      simp only [beq_self_eq_true, if_true]
      apply lookupLast_no_match
      intro z hz
      cases hb : (z.id == lt.id) with
      | false => rfl
      | true =>
        have hz' : z.id = lt.id := by simpa using hb
        exact absurd (hz' ▸ List.mem_map_of_mem Task.id hz) hnd.1
    · have ht : (t.id == lt.id) = false := by
        cases hb : (t.id == lt.id) with
        | false => rfl
        | true =>
          have ht' : t.id = lt.id := by simpa using hb
          exact absurd (ht' ▸ List.mem_map_of_mem Task.id h) hnd.1
      simp only [ht, Bool.false_eq_true, if_false]
      exact ih acc hnd.2 h

theorem mem_mergeTasks_diskOnly (diskTasks localTasks : List Task) (dt : Task)
    (hdt : dt ∈ diskTasks)
    (h : ∀ t ∈ localTasks, (t.id == dt.id) = false) :
    dt ∈ mergeTasks diskTasks localTasks := by
  unfold mergeTasks
  apply (mem_sortByKey _ _ _).mpr
  apply List.mem_append_left
  apply List.mem_map.mpr
  refine ⟨dt, hdt, ?_⟩
  show (match lookupLast localTasks dt.id with
    | some lt => lt
    | none => dt) = dt
  rw [show lookupLast localTasks dt.id = none from
    lookupLast_no_match dt.id localTasks none h]

theorem mem_mergeTasks_localOnly (diskTasks localTasks : List Task)
    (lt : Task) (hlt : lt ∈ localTasks)
    (h : diskTasks.any (fun dt => dt.id == lt.id) = false) :
    lt ∈ mergeTasks diskTasks localTasks := by
  unfold mergeTasks
  apply (mem_sortByKey _ _ _).mpr
  apply List.mem_append_right
  exact List.mem_filter.mpr ⟨hlt, by simp [h]⟩

theorem mem_mergeTasks_both (diskTasks localTasks : List Task) (dt lt : Task)
    (hnd : (localTasks.map Task.id).Nodup) (hdt : dt ∈ diskTasks)
    (hlt : lt ∈ localTasks) (hid : dt.id = lt.id) :
    lt ∈ mergeTasks diskTasks localTasks := by
  unfold mergeTasks
  apply (mem_sortByKey _ _ _).mpr
  apply List.mem_append_left
  apply List.mem_map.mpr
  refine ⟨dt, hdt, ?_⟩
  show (match lookupLast localTasks dt.id with
    | some lt' => lt'
    | none => dt) = lt
  rw [show lookupLast localTasks dt.id = some lt by
    unfold lookupLast
    rw [hid]
    exact lookupLast_foldl_nodup lt localTasks none hnd hlt]

/-- **C3.** Reconciliation union, no loss: a disk category whose id is
absent from the local snapshot is kept; a local category whose id is
absent from disk is in the merged result; and for a category present in
both, disk tasks whose id is absent locally are kept while local tasks
whose id is absent from disk are added. -/
theorem c3_union_no_loss (fresh locl : List Category)
    (hl : (locl.map Category.id).Nodup) :
    (∀ dc ∈ fresh, (∀ lc ∈ locl, (dc.id == lc.id) = false) →
      dc ∈ mergeCategories fresh locl) ∧
    (∀ lc ∈ locl, (∀ dc ∈ fresh, (dc.id == lc.id) = false) →
      lc ∈ mergeCategories fresh locl) ∧
    ((fresh.map Category.id).Nodup →
      ∀ dc ∈ fresh, ∀ lc ∈ locl, dc.id = lc.id →
        ∃ c ∈ mergeCategories fresh locl, c.id = lc.id ∧
          (∀ dt ∈ dc.tasks, (∀ t ∈ lc.tasks, (t.id == dt.id) = false) →
            dt ∈ c.tasks) ∧
          (∀ lt ∈ lc.tasks, (dc.tasks.any (fun t => t.id == lt.id)) = false →
            lt ∈ c.tasks)) := by
  refine ⟨?_, ?_, ?_⟩
  · intro dc hdc h
    unfold mergeCategories
    apply (mem_sortByKey _ _ _).mpr
    exact mem_foldl_merge dc locl fresh hdc h
  · intro lc hlc h
    obtain ⟨pre, post, rfl⟩ := List.append_of_mem hlc
    rw [List.map_append, List.map_cons] at hl
    have hpost_nodup := (List.nodup_append.mp hl).2.1
    have hpost : ∀ y ∈ post, (lc.id == y.id) = false := by
      intro y hy
      cases hb : (lc.id == y.id) with
      | false => rfl
      | true =>
        have hyid : lc.id = y.id := by simpa using hb
        exact absurd (hyid ▸ List.mem_map_of_mem Category.id hy)
          (List.nodup_cons.mp hpost_nodup).1
    have hpre : ∀ y ∈ pre, (y.id == lc.id) = false := by
      intro y hy
      cases hb : (y.id == lc.id) with
      | false => rfl
      | true =>
        have hyid : y.id = lc.id := by simpa using hb
        exact absurd (List.mem_cons_self lc.id (post.map Category.id))
          (fun hm => (List.nodup_append.mp hl).2.2
            (List.mem_map_of_mem Category.id hy) (hyid ▸ hm))
    unfold mergeCategories
    rw [List.foldl_append, List.foldl_cons]
    have h1 : (List.foldl mergeOne fresh pre).filter (fun c => c.id == lc.id)
        = [] := by
      rw [filter_foldl_ne lc.id pre fresh hpre]
      apply List.filter_eq_nil_iff.mpr
      intro c hc hcq
      have hcq' : c.id = lc.id := by simpa using hcq
      have := h c hc
      rw [hcq'] at this
      simp at this
    have ha : (List.foldl mergeOne fresh pre).any
        (fun dc => dc.id == lc.id) = false := by
      cases hb : (List.foldl mergeOne fresh pre).any
          (fun dc => dc.id == lc.id) with
      | false => rfl
      | true =>
        obtain ⟨x, hx, hxq⟩ := List.any_eq_true.mp hb
        have : x ∈ (List.foldl mergeOne fresh pre).filter
            (fun c => c.id == lc.id) := List.mem_filter.mpr ⟨hx, hxq⟩
        rw [h1] at this
        exact absurd this (List.not_mem_nil x)
    apply (mem_sortByKey _ _ _).mpr
    apply mem_foldl_merge lc post _ _ hpost
    rw [mergeOne_not_found _ lc ha]
    exact List.mem_append_right _ (List.mem_cons_self lc [])
  · intro hf dc hdc lc hlc heq
    refine ⟨applyLocal dc lc,
      applyLocal_mem_merge fresh locl dc lc hf hl hdc hlc heq, heq, ?_, ?_⟩
    · intro dt hdt h
      exact mem_mergeTasks_diskOnly dc.tasks lc.tasks dt hdt h
    · intro lt hlt h
      exact mem_mergeTasks_localOnly dc.tasks lc.tasks lt hlt h

/-- **C4.** Reconciliation field precedence: for a category id present in
both lists, the merged category's scalar fields (`name`, `color`,
`isCollapsed`, `lastSortOrder`) are the local category's values, and every
task id present in both task lists is represented by the local task's
version. -/
theorem c4_field_precedence (fresh locl : List Category) (dc lc : Category)
    (hf : (fresh.map Category.id).Nodup) (hl : (locl.map Category.id).Nodup)
    (hdc : dc ∈ fresh) (hlc : lc ∈ locl) (heq : dc.id = lc.id) :
    ∃ c ∈ mergeCategories fresh locl,
      c.id = lc.id ∧ c.name = lc.name ∧ c.color = lc.color ∧
      c.isCollapsed = lc.isCollapsed ∧ c.lastSortOrder = lc.lastSortOrder ∧
      ((lc.tasks.map Task.id).Nodup →
        ∀ lt ∈ lc.tasks, ∀ dt ∈ dc.tasks, dt.id = lt.id → lt ∈ c.tasks) := by
  refine ⟨applyLocal dc lc,
    applyLocal_mem_merge fresh locl dc lc hf hl hdc hlc heq,
    heq, rfl, rfl, rfl, rfl, ?_⟩
  intro hts lt hlt dt hdt hid
  exact mem_mergeTasks_both dc.tasks lc.tasks dt lt hts hdt hlt hid

/-- A minimal task with a given id, used by concrete witness states. -/
def wTask (i : String) : Task :=
  { id := i, text := i, completed := false, dueDate := none,
    scratchpad := none, recurrenceType := none, recurrenceValue := none,
    recurrenceUntil := none, recurrenceExdates := none }

/-- A category with a given id, name and tasks, used by witness states. -/
def wCat (i n : String) (ts : List Task) : Category :=
  { id := i, name := n, tasks := ts, isCollapsed := none, color := none,
    lastSortOrder := none }

/-- Disk-side category `A` for the C3/C4 witnesses. -/
def wDiskA : Category := wCat "A" "diskA" [wTask "1", wTask "2"]

/-- Disk-only category `B`. -/
def wDiskB : Category := wCat "B" "diskB" [wTask "5"]

/-- Local-side category `A` (same id as `wDiskA`, different name, shares
task `2` and adds task `3`). -/
def wLocalA : Category :=
  wCat "A" "localA" [{ wTask "2" with text := "local edit" }, wTask "3"]

/-- Local-only category `C`. -/
def wLocalC : Category := wCat "C" "localC" []

/-- **C3 witness.** -/
theorem c3_union_no_loss_witness :
    (wDiskB ∈ mergeCategories [wDiskA, wDiskB] [wLocalA, wLocalC]) ∧
    (wLocalC ∈ mergeCategories [wDiskA, wDiskB] [wLocalA, wLocalC]) ∧
    (∃ c ∈ mergeCategories [wDiskA, wDiskB] [wLocalA, wLocalC],
      c.id = wLocalA.id ∧
      (∀ dt ∈ wDiskA.tasks, (∀ t ∈ wLocalA.tasks, (t.id == dt.id) = false) →
        dt ∈ c.tasks) ∧
      (∀ lt ∈ wLocalA.tasks,
        (wDiskA.tasks.any (fun t => t.id == lt.id)) = false →
        lt ∈ c.tasks)) := by
  have h := c3_union_no_loss [wDiskA, wDiskB] [wLocalA, wLocalC] (by decide)
  exact ⟨h.1 wDiskB (by decide) (by decide),
    h.2.1 wLocalC (by decide) (by decide),
    h.2.2 (by decide) wDiskA (by decide) wLocalA (by decide) rfl⟩

/-- **C4 witness.** -/
theorem c4_field_precedence_witness :
    ∃ c ∈ mergeCategories [wDiskA, wDiskB] [wLocalA, wLocalC],
      c.id = wLocalA.id ∧ c.name = wLocalA.name ∧ c.color = wLocalA.color ∧
      c.isCollapsed = wLocalA.isCollapsed ∧
      c.lastSortOrder = wLocalA.lastSortOrder ∧
      ((wLocalA.tasks.map Task.id).Nodup →
        ∀ lt ∈ wLocalA.tasks, ∀ dt ∈ wDiskA.tasks, dt.id = lt.id →
          lt ∈ c.tasks) :=
  c4_field_precedence [wDiskA, wDiskB] [wLocalA, wLocalC] wDiskA wLocalA
    (by decide) (by decide) (by decide) (by decide) rfl

/-! ## Dedicated delete path (C5) -/

theorem deleteTaskShared_removes (categoryId taskId : String) :
    ∀ l : List Category, (l.map Category.id).Nodup →
      ∀ c ∈ updateFirst (fun c => c.id == categoryId)
        (fun category => { category with
          tasks := category.tasks.filter (fun t => !(t.id == taskId)) }) l,
        (c.id == categoryId) = true →
        ∀ t ∈ c.tasks, (t.id == taskId) = false := by
  intro l
  induction l with
  | nil => intro _ c hc; exact absurd hc (List.not_mem_nil c)
  | cons y ys ih =>
    intro hnd c hc hcid t ht
    rw [List.map_cons, List.nodup_cons] at hnd
    by_cases hy : (y.id == categoryId) = true
    · rw [updateFirst_cons, if_pos hy] at hc
      rcases List.mem_cons.mp hc with h | h
      · subst h
        have := (List.mem_filter.mp ht).2
        simpa using this
      · have hyid : y.id = categoryId := by simpa using hy
        have hcid' : c.id = categoryId := by simpa using hcid
        exact absurd
          (by rw [hyid, ← hcid']; exact List.mem_map_of_mem Category.id h)
          hnd.1
    · rw [updateFirst_cons, if_neg hy] at hc
      rcases List.mem_cons.mp hc with h | h
      · subst h; exact absurd hcid hy
      · exact ih hnd.2 c h hcid t ht

/-- **C5.** The dedicated shared-mode delete path removes the task by
identity from the fresh disk read and writes the result: in the written
state, the target category contains no task with the deleted id; every
category with a different id is written exactly as read from disk; no
category is added or dropped. The caller's in-memory list is not an input
of this path, so a stale snapshot still containing the task cannot
resurrect it. -/
theorem c5_delete_path (disk : List Category) (categoryId taskId : String)
    (out : List Category)
    (hnd : (disk.map Category.id).Nodup)
    (hout : deleteTaskShared disk categoryId taskId = some out) :
    (∀ c ∈ out, c.id = categoryId → ∀ t ∈ c.tasks, t.id ≠ taskId) ∧
    (∀ c ∈ out, c.id ≠ categoryId → c ∈ disk) ∧
    out.length = disk.length := by
  unfold deleteTaskShared at hout
  by_cases ha : disk.any (fun c => c.id == categoryId) = true
  · rw [if_pos ha] at hout
    injection hout with hout
    subst hout
    refine ⟨?_, ?_, ?_⟩
    · intro c hc hcid t ht
      have hres := deleteTaskShared_removes categoryId taskId disk hnd c hc
        (by simp [hcid]) t ht
      intro hEq
      rw [hEq] at hres
      simp at hres
    · intro c hc hcid
      refine mem_of_mem_updateFirst_of_ne _ _ ?_ c disk hc (by simp [hcid])
      intro y hy
      exact hy
    · exact length_updateFirst _ _ disk
  · rw [if_neg ha] at hout
    exact absurd hout (by simp)

/-- The fresh disk read used by the C5 witness: the target category `c1`
holds tasks `t1`, `t2`; a sibling category `c2` also holds a task named
`t1`. -/
def c5Disk : List Category :=
  [wCat "c1" "first" [wTask "t1", wTask "t2"], wCat "c2" "second" [wTask "t1"]]

/-- The state the C5 delete path writes back. -/
def c5Out : List Category :=
  [{ wCat "c1" "first" [wTask "t1", wTask "t2"] with tasks := [wTask "t2"] },
    wCat "c2" "second" [wTask "t1"]]

/-- **C5 witness.** -/
theorem c5_delete_path_witness :
    deleteTaskShared c5Disk "c1" "t1" = some c5Out ∧
    (∀ c ∈ c5Out, c.id = "c1" → ∀ t ∈ c.tasks, t.id ≠ "t1") ∧
    c5Out.length = c5Disk.length := by
  have h := c5_delete_path c5Disk "c1" "t1" c5Out (by decide) (by decide)
  exact ⟨by decide, h.1, h.2.2⟩

end STB
